import Mathlib

/-!
Verification of the P9ML prime-factorization core
(src/p9ml_prime_factorization.c, src/lua_p9ml_prime.c).

The C code is shallowly embedded: machine `uint32_t` values are modelled by
`Nat` (every value appearing during a run of the factorizer on an input
below 2^32 stays below 2^32, so ideal arithmetic agrees with the machine
arithmetic; the one place where 32-bit wraparound is observable, the
initial step `y = (x + 1) / 2` of `isqrt` at `n = 2^32 - 1`, is modelled
separately by `isqrtU32` with an explicit `% 2^32` and an `Option` result
for the ensuing division by zero).  The process-wide cache array together
with `cache_size` is modelled by a list of (number, factors) pairs, and
each C function that touches the cache becomes a function taking and
returning that list.
-/

/-- The constant `small_primes` table: the first 20 primes, 2..71. -/
def smallPrimes : List Nat :=
  [2, 3, 5, 7, 11, 13, 17, 19, 23, 29, 31, 37, 41, 43, 47, 53, 59, 61, 67, 71]

/-- `MAX_FACTORS` from the C source. -/
def MAX_FACTORS : Nat := 64

/-- `MAX_CACHE_SIZE` from the C source. -/
def MAX_CACHE_SIZE : Nat := 1000

/-- The Newton iteration `while (y < x) { x = y; y = (x + n/x)/2; }` of the
C `isqrt`, in ideal (non-wrapping) arithmetic. -/
def isqrtLoop (n x y : Nat) : Nat :=
  if y < x then isqrtLoop n y ((y + n / y) / 2) else x
termination_by x

/-- C `isqrt`: `if (n < 2) return n;` then Newton iteration starting from
`x = n`, `y = (x + 1) / 2`. -/
def isqrt (n : Nat) : Nat :=
  if n < 2 then n else isqrtLoop n n ((n + 1) / 2)

/-- The Newton iteration of the C `isqrt` with faithful `uint32_t`
wraparound; `none` models the undefined behaviour of `n / x` at `x = 0`. -/
def isqrtU32Loop (n x y : Nat) : Option Nat :=
  if y < x then
    if y = 0 then none
    else isqrtU32Loop n y ((y + n / y) % 4294967296 / 2)
  else some x
termination_by x

/-- C `isqrt` with faithful `uint32_t` wraparound: the initial
`y = (x + 1) / 2` is computed mod 2^32. -/
def isqrtU32 (n : Nat) : Option Nat :=
  if n < 2 then some n else isqrtU32Loop n n ((n + 1) % 4294967296 / 2)

/-- The inner `while (n % p == 0) { factors[fc++] = p; n /= p; }` loops of
the factorizers: returns the appended factors and the remaining cofactor.
(The guards `2 ≤ p` and `0 < n` hold at every call site in the C code;
for `p ≤ 1` or `n = 0` the C loop would not terminate.) -/
def divideOut (p n : Nat) : List Nat × Nat :=
  if 2 ≤ p ∧ 0 < n ∧ n % p = 0 then
    ((p :: (divideOut p (n / p)).1, (divideOut p (n / p)).2) : List Nat × Nat)
  else ([], n)
termination_by n
decreasing_by exact Nat.div_lt_self (by omega) (by omega)

theorem divideOut_prod (p n : Nat) : (divideOut p n).1.prod * (divideOut p n).2 = n := by
  induction n using divideOut.induct p with
  | case1 n h ih =>
    rw [divideOut, if_pos h]
    simp only [List.prod_cons]
    rw [Nat.mul_assoc, ih]
    exact Nat.mul_div_cancel' (Nat.dvd_of_mod_eq_zero h.2.2)
  | case2 n h => rw [divideOut, if_neg h]; simp

theorem divideOut_mem (p n : Nat) : ∀ x ∈ (divideOut p n).1, x = p := by
  induction n using divideOut.induct p with
  | case1 n h ih =>
    rw [divideOut, if_pos h]
    intro x hx
    rcases List.mem_cons.mp hx with h1 | h2
    · exact h1
    · exact ih x h2
  | case2 n h => rw [divideOut, if_neg h]; simp

theorem divideOut_pos (p n : Nat) (hn : 0 < n) : 0 < (divideOut p n).2 := by
  induction n using divideOut.induct p with
  | case1 n h ih =>
    rw [divideOut, if_pos h]
    exact ih (Nat.div_pos (Nat.le_of_dvd h.2.1 (Nat.dvd_of_mod_eq_zero h.2.2)) (by omega))
  | case2 n h => rw [divideOut, if_neg h]; exact hn

theorem divideOut_dvd (p n : Nat) : (divideOut p n).2 ∣ n := by
  induction n using divideOut.induct p with
  | case1 n h ih =>
    rw [divideOut, if_pos h]
    exact ih.trans (Nat.div_dvd_of_dvd (Nat.dvd_of_mod_eq_zero h.2.2))
  | case2 n h => rw [divideOut, if_neg h]

theorem divideOut_not_dvd (p n : Nat) (hp : 2 ≤ p) (hn : 0 < n) :
    ¬ p ∣ (divideOut p n).2 := by
  induction n using divideOut.induct p with
  | case1 n h ih =>
    rw [divideOut, if_pos h]
    exact ih (Nat.div_pos (Nat.le_of_dvd h.2.1 (Nat.dvd_of_mod_eq_zero h.2.2)) (by omega))
  | case2 n h =>
    rw [divideOut, if_neg h]
    intro hdvd
    exact h ⟨hp, hn, Nat.dvd_iff_mod_eq_zero.mp hdvd⟩

theorem divideOut_snd_le (p n : Nat) : (divideOut p n).2 ≤ n := by
  rcases Nat.eq_zero_or_pos n with h0 | hpos
  · subst h0
    rw [divideOut, if_neg (by omega)]
  · exact Nat.le_of_dvd hpos (divideOut_dvd p n)

theorem divideOut_snd_lt (p n : Nat) (h : (divideOut p n).1 ≠ []) :
    (divideOut p n).2 < n := by
  by_cases hg : 2 ≤ p ∧ 0 < n ∧ n % p = 0
  · rw [divideOut, if_pos hg]
    calc (divideOut p (n / p)).2 ≤ n / p := divideOut_snd_le p (n / p)
      _ < n := Nat.div_lt_self hg.2.1 (by omega)
  · rw [divideOut, if_neg hg] at h
    exact absurd rfl h

theorem divideOut_nonempty (p n : Nat) (h : (divideOut p n).1 ≠ []) :
    2 ≤ p ∧ 0 < n ∧ p ∣ n := by
  by_cases hg : 2 ≤ p ∧ 0 < n ∧ n % p = 0
  · exact ⟨hg.1, hg.2.1, Nat.dvd_of_mod_eq_zero hg.2.2⟩
  · rw [divideOut, if_neg hg] at h
    exact absurd rfl h

theorem divideOut_eq_nil (p n : Nat) (hp : 2 ≤ p) (hn : 0 < n)
    (h : (divideOut p n).1 = []) : ¬ p ∣ n := by
  intro hdvd
  rw [divideOut, if_pos ⟨hp, hn, Nat.dvd_iff_mod_eq_zero.mp hdvd⟩] at h
  exact List.cons_ne_nil _ _ h

/-- One Newton step from any positive `x` stays at or above `Nat.sqrt n`. -/
theorem sqrt_le_newton_step (n x : Nat) (hx : 0 < x) :
    Nat.sqrt n ≤ (x + n / x) / 2 := by
  by_contra hlt
  push_neg at hlt
  have hdm : x * (n / x) + n % x = n := Nat.div_add_mod n x
  have hmod : n % x < x := Nat.mod_lt n hx
  have hsq : Nat.sqrt n * Nat.sqrt n ≤ n := Nat.sqrt_le n
  generalize hqd : n / x = q at hlt hdm
  generalize hrd : n % x = r at hdm hmod
  generalize hsd : Nat.sqrt n = s at hlt hsq
  clear hqd hrd hsd
  have h2 : x + q < 2 * s := by
    have := (Nat.div_lt_iff_lt_mul (by omega : 0 < 2)).mp hlt
    omega
  have hx2s : x ≤ 2 * s := by omega
  have hq1 : q + 1 ≤ 2 * s - x := by omega
  have h3 : n < (q + 1) * x := by nlinarith
  have hlt2 : n < (2 * s - x) * x := Nat.lt_of_lt_of_le h3 (Nat.mul_le_mul_right x hq1)
  zify [hx2s] at hlt2 hsq
  nlinarith [sq_nonneg ((x : Int) - s)]

theorem isqrtLoop_eq (n : Nat) (hs1 : 1 ≤ Nat.sqrt n) :
    ∀ x, 0 < x → Nat.sqrt n ≤ x → ∀ y, y = (x + n / x) / 2 →
      isqrtLoop n x y = Nat.sqrt n := by
  intro x
  induction x using Nat.strong_induction_on with
  | _ x ih =>
    intro hx hsx y hy
    rw [isqrtLoop]
    by_cases hyx : y < x
    · rw [if_pos hyx]
      have hsy : Nat.sqrt n ≤ y := hy ▸ sqrt_le_newton_step n x hx
      exact ih y hyx (by omega) hsy _ rfl
    · rw [if_neg hyx]
      push_neg at hyx
      have hxle : x ≤ n / x := by
        subst hy
        have : x * 2 ≤ x + n / x := (Nat.le_div_iff_mul_le (by omega)).mp hyx
        omega
      have : x * x ≤ n := by
        calc x * x ≤ (n / x) * x := Nat.mul_le_mul_right x hxle
          _ ≤ n := Nat.div_mul_le_self n x
      exact Nat.le_antisymm (Nat.le_sqrt.mpr this) hsx

/-- The C `isqrt` computes the exact integer square root (in ideal
arithmetic, faithful to the machine for every `n` except `2^32 - 1`). -/
theorem isqrt_eq_sqrt (n : Nat) : isqrt n = Nat.sqrt n := by
  by_cases h : n < 2
  · interval_cases n
    · simp [isqrt]
    · simp [isqrt]
  · push_neg at h
    have hs1 : 1 ≤ Nat.sqrt n := Nat.le_sqrt.mpr (by omega)
    rw [isqrt, if_neg (by omega)]
    have hself : n / n = 1 := Nat.div_self (by omega)
    exact isqrtLoop_eq n hs1 n (by omega) (Nat.sqrt_le_self n) _ (by rw [hself])

/-- The `for` loop over `small_primes` in `prime_factorize_optimized`
(lines 93-106): strip each prime in turn; break when the cofactor hits 1;
when `p * p > n` the (necessarily prime) cofactor is appended to the
factor list but `n` itself is left unchanged — exactly as in the C code,
whose final `if (n > 1)` then appends it a second time.
Returns (factors appended so far, remaining cofactor). -/
def smallPrimeLoop : List Nat → Nat → List Nat × Nat
  | [], n => ([], n)
  | p :: ps, n =>
    let r := divideOut p n
    if r.2 = 1 then r
    else if r.2 < p * p then (r.1 ++ [r.2], r.2)
    else
      let s := smallPrimeLoop ps r.2
      (r.1 ++ s.1, s.2)

/-- The odd-candidate trial-division loop of `prime_factorize_optimized`
(lines 116-123): `while (candidate <= sqrt_n)`, dividing out each
candidate fully (recomputing `isqrt` after each division) and stepping
`candidate += 2`. -/
def trialLoop (cand n s : Nat) : List Nat × Nat :=
  if cand ≤ s then
    if (divideOut cand n).1 = [] then
      trialLoop (cand + 2) n s
    else
      ((divideOut cand n).1 ++
        (trialLoop (cand + 2) (divideOut cand n).2 (isqrt (divideOut cand n).2)).1,
       (trialLoop (cand + 2) (divideOut cand n).2 (isqrt (divideOut cand n).2)).2)
  else ([], n)
termination_by (n, s + 1 - cand)
decreasing_by
· exact Prod.Lex.right n (by omega)
· exact Prod.Lex.left _ _ (divideOut_snd_lt _ _ (by assumption))

/-- The factor sequence `prime_factorize_optimized` computes on a cache
miss for `n ≥ 2` (lines 90-129 of the C source). -/
def prime_factorize_core (n : Nat) : List Nat :=
  let r := smallPrimeLoop smallPrimes n
  if 1 < r.2 then
    let t :=
      if 71 * 71 ≤ r.2 then
        trialLoop (if (71 + 2) % 2 = 0 then 71 + 2 + 1 else 71 + 2) r.2 (isqrt r.2)
      else ([], r.2)
    if 1 < t.2 then r.1 ++ t.1 ++ [t.2] else r.1 ++ t.1
  else r.1

/-- The cache: `factor_cache[0..cache_size)` as a list of
(number, stored factor sequence) pairs, oldest entry first. -/
abbrev Cache := List (Nat × List Nat)

/-- C `check_cache`: linear scan, first match by number wins. -/
def checkCache : Cache → Nat → Option (List Nat)
  | [], _ => none
  | e :: rest, n => if e.1 = n then some e.2 else checkCache rest n

/-- C `add_to_cache`: silent no-op at capacity or when the factor count
reaches `MAX_FACTORS`; otherwise appends a new entry (no dedup). -/
def addToCache (c : Cache) (n : Nat) (fs : List Nat) : Cache :=
  if MAX_CACHE_SIZE ≤ c.length ∨ MAX_FACTORS ≤ fs.length then c
  else c ++ [(n, fs)]

/-- C `prime_factorize_optimized`: returns the factor sequence and the
updated cache. -/
def prime_factorize_optimized (n : Nat) (c : Cache) : List Nat × Cache :=
  if n ≤ 1 then ([], c)
  else
    match checkCache c n with
    | some fs => (fs, c)
    | none => (prime_factorize_core n, addToCache c n (prime_factorize_core n))

/-- C `batch_prime_factorize_avx2` / `lua_batch_prime_factorize`: apply
the factorizer to each input in order, threading the cache through. -/
def batch_factorize : List Nat → Cache → List (List Nat) × Cache
  | [], c => ([], c)
  | x :: xs, c =>
    let r := prime_factorize_optimized x c
    let rr := batch_factorize xs r.2
    (r.1 :: rr.1, rr.2)

/-- The `wheel[]` increment table of `wheel_factorize`. -/
def wheelIncs : List Nat := [4, 6, 10, 12, 16, 18, 22, 24]

/-- The candidate loop of `wheel_factorize` (lines 172-181).  `pos` is the
C `wheel_pos`, always kept in `[0, 8)` (initially 0, updated to
`(pos + 1) % 8`), so `wheelIncs.getD (pos % 8) 0` is exactly the C
`wheel[wheel_pos]`. -/
def wheelLoop (cand n s pos : Nat) : List Nat × Nat :=
  if cand ≤ s then
    if (divideOut cand n).1 = [] then
      wheelLoop (cand + wheelIncs.getD (pos % 8) 0) n s ((pos + 1) % 8)
    else
      ((divideOut cand n).1 ++
        (wheelLoop (cand + wheelIncs.getD (pos % 8) 0) (divideOut cand n).2
          (isqrt (divideOut cand n).2) ((pos + 1) % 8)).1,
       (wheelLoop (cand + wheelIncs.getD (pos % 8) 0) (divideOut cand n).2
          (isqrt (divideOut cand n).2) ((pos + 1) % 8)).2)
  else ([], n)
termination_by (n, s + 1 - cand)
decreasing_by
· refine Prod.Lex.right n ?_
  have hlt : pos % 8 < 8 := Nat.mod_lt pos (by omega)
  have hpos : 0 < wheelIncs.getD (pos % 8) 0 := by
    have hall : ∀ j < 8, 0 < wheelIncs.getD j 0 := by decide
    exact hall _ hlt
  omega
· exact Prod.Lex.left _ _ (divideOut_snd_lt _ _ (by assumption))

/-- C `wheel_factorize`: strip 2, 3, 5, then walk the wheel candidates
from 7; append any surviving cofactor. -/
def wheel_factorize (n : Nat) : List Nat :=
  if n ≤ 1 then []
  else
    let r2 := divideOut 2 n
    let r3 := divideOut 3 r2.2
    let r5 := divideOut 5 r3.2
    if r5.2 ≤ 1 then r2.1 ++ r3.1 ++ r5.1
    else
      let t := wheelLoop 7 r5.2 (isqrt r5.2) 0
      if 1 < t.2 then r2.1 ++ r3.1 ++ r5.1 ++ t.1 ++ [t.2]
      else r2.1 ++ r3.1 ++ r5.1 ++ t.1

/-- The `common_dims[]` table of `precompute_common_dimensions`. -/
def common_dims : List Nat :=
  [1, 2, 3, 4, 8, 16, 32, 64, 128, 256, 512, 1024, 2048, 4096,
   224, 299, 331, 448, 640, 768, 896, 1280, 1920,
   7, 14, 28, 56, 112]

/-- The `for` loop of `precompute_common_dimensions`: the guard
`cache_size < MAX_CACHE_SIZE` is checked before each iteration. -/
def precomputeLoop : List Nat → Cache → Cache
  | [], c => c
  | d :: ds, c =>
    if c.length < MAX_CACHE_SIZE then
      precomputeLoop ds (prime_factorize_optimized d c).2
    else c

/-- C `precompute_common_dimensions` (cache side effect only; the Lua
binding reports the resulting cache size as the return value). -/
def precompute_common_dimensions (c : Cache) : Cache :=
  precomputeLoop common_dims c

/-- C `clear_factorization_cache`. -/
def clear_factorization_cache (_ : Cache) : Cache := []

/-- C `get_cache_stats`: (current size, capacity). -/
def get_cache_stats (c : Cache) : Nat × Nat := (c.length, MAX_CACHE_SIZE)

/-- Cache states reachable from the initial empty cache through the
exposed operations. -/
inductive Reachable : Cache → Prop where
  | empty : Reachable []
  | factorize {c : Cache} (n : Nat) : Reachable c →
      Reachable (prime_factorize_optimized n c).2
  | batch {c : Cache} (xs : List Nat) : Reachable c →
      Reachable (batch_factorize xs c).2
  | precompute {c : Cache} : Reachable c →
      Reachable (precompute_common_dimensions c)
  | clear {c : Cache} : Reachable c →
      Reachable (clear_factorization_cache c)

/-- Cache validity: every entry stores, for a number `≥ 2`, exactly the
factor sequence `prime_factorize_core` produces for it. -/
def ValidCache (c : Cache) : Prop :=
  ∀ e ∈ c, 2 ≤ e.1 ∧ e.2 = prime_factorize_core e.1

theorem pairwise_le_of_all_eq {l : List Nat} {p : Nat} (h : ∀ x ∈ l, x = p) :
    List.Pairwise (· ≤ ·) l := by
  induction l with
  | nil => exact List.Pairwise.nil
  | cons a l ih =>
    refine List.Pairwise.cons ?_ (ih fun x hx => h x (List.mem_cons_of_mem a hx))
    intro b hb
    rw [h a (List.mem_cons_self a l), h b (List.mem_cons_of_mem a hb)]

theorem two_pow_length_le_prod {l : List Nat} (h : ∀ x ∈ l, 2 ≤ x) :
    2 ^ l.length ≤ l.prod := by
  induction l with
  | nil => simp
  | cons a l ih =>
    simp only [List.length_cons, List.prod_cons, Nat.pow_succ]
    calc 2 ^ l.length * 2 = 2 * 2 ^ l.length := by ring
      _ ≤ a * l.prod :=
        Nat.mul_le_mul (h a (List.mem_cons_self a l))
          (ih fun x hx => h x (List.mem_cons_of_mem a hx))

theorem splLoop_nil (n : Nat) : smallPrimeLoop [] n = ([], n) := rfl

theorem splLoop_cons_one {p n : Nat} (ps : List Nat) (h : (divideOut p n).2 = 1) :
    smallPrimeLoop (p :: ps) n = divideOut p n := by
  simp only [smallPrimeLoop]
  rw [if_pos h]

theorem splLoop_cons_small {p n : Nat} (ps : List Nat) (h1 : (divideOut p n).2 ≠ 1)
    (h2 : (divideOut p n).2 < p * p) :
    smallPrimeLoop (p :: ps) n =
      ((divideOut p n).1 ++ [(divideOut p n).2], (divideOut p n).2) := by
  simp only [smallPrimeLoop]
  rw [if_neg h1, if_pos h2]

theorem splLoop_cons_rec {p n : Nat} (ps : List Nat) (h1 : (divideOut p n).2 ≠ 1)
    (h2 : ¬ (divideOut p n).2 < p * p) :
    smallPrimeLoop (p :: ps) n =
      ((divideOut p n).1 ++ (smallPrimeLoop ps (divideOut p n).2).1,
       (smallPrimeLoop ps (divideOut p n).2).2) := by
  simp only [smallPrimeLoop]
  rw [if_neg h1, if_neg h2]

/-- Full specification of the small-prime loop.  `lb` is a lower bound on
every prime factor of `n`; `ps` is a strictly increasing list of primes,
all `≥ lb`, containing every prime between `lb` and its largest element.
The three disjuncts correspond to the three ways the C loop ends: cofactor
reduced to 1 (factors complete), early exit `p*p > n` (prime cofactor
already appended, but also still returned as the remaining value), and
normal loop exhaustion (cofactor survives with all prime factors beyond
the table). -/
theorem splSpec : ∀ (ps : List Nat) (lb n : Nat),
    0 < n →
    (∀ q, Nat.Prime q → q ∣ n → lb ≤ q) →
    (∀ p ∈ ps, Nat.Prime p ∧ lb ≤ p) →
    List.Pairwise (· < ·) ps →
    (∀ q, Nat.Prime q → lb ≤ q → (∃ p ∈ ps, q ≤ p) → q ∈ ps) →
    0 < (smallPrimeLoop ps n).2 ∧
    (smallPrimeLoop ps n).2 ∣ n ∧
    (∀ x ∈ (smallPrimeLoop ps n).1, Nat.Prime x ∧ lb ≤ x) ∧
    List.Pairwise (· ≤ ·) (smallPrimeLoop ps n).1 ∧
    (∀ q, Nat.Prime q → q ∣ (smallPrimeLoop ps n).2 →
      ∀ x ∈ (smallPrimeLoop ps n).1, x ≤ q) ∧
    (((smallPrimeLoop ps n).2 = 1 ∧ (smallPrimeLoop ps n).1.prod = n) ∨
     (1 < (smallPrimeLoop ps n).2 ∧ Nat.Prime (smallPrimeLoop ps n).2 ∧
      (∃ p ∈ ps, (smallPrimeLoop ps n).2 < p * p) ∧
      (∃ l, (smallPrimeLoop ps n).1 = l ++ [(smallPrimeLoop ps n).2]) ∧
      (smallPrimeLoop ps n).1.prod = n) ∨
     (1 < (smallPrimeLoop ps n).2 ∧
      (smallPrimeLoop ps n).1.prod * (smallPrimeLoop ps n).2 = n ∧
      (∀ q, Nat.Prime q → q ∣ (smallPrimeLoop ps n).2 → ∀ p ∈ ps, p < q) ∧
      (∀ p, ps.getLast? = some p → p * p ≤ (smallPrimeLoop ps n).2))) := by
  intro ps
  induction ps with
  | nil =>
    intro lb n hn hfac hps hsort hcov
    rw [splLoop_nil]
    refine ⟨hn, dvd_rfl, by simp, List.Pairwise.nil, by simp, ?_⟩
    rcases Nat.lt_or_ge n 2 with h2 | h2
    · left
      refine ⟨by omega, ?_⟩
      simp only [List.prod_nil]
      omega
    · right; right
      refine ⟨by omega, by simp, ?_, ?_⟩
      · intro q _ _ p hp
        exact absurd hp (List.not_mem_nil p)
      · intro p hp
        simp at hp
  | cons p tail ih =>
    intro lb n hn hfac hps hsort hcov
    obtain ⟨hp, hlbp⟩ := hps p (List.mem_cons_self p tail)
    have hp2 : 2 ≤ p := hp.two_le
    have rprod := divideOut_prod p n
    have rmem := divideOut_mem p n
    have rpos := divideOut_pos p n hn
    have rndvd := divideOut_not_dvd p n hp2 hn
    have rdvd := divideOut_dvd p n
    have hgt : ∀ d, 2 ≤ d → d ∣ (divideOut p n).2 → p < d := by
      intro d hd2 hdvd
      have hq : Nat.Prime d.minFac := Nat.minFac_prime (by omega)
      have hqd : d.minFac ∣ (divideOut p n).2 := (Nat.minFac_dvd d).trans hdvd
      have hqn : d.minFac ∣ n := hqd.trans rdvd
      have hlbq : lb ≤ d.minFac := hfac _ hq hqn
      have hpq : p < d.minFac := by
        by_contra hle
        push_neg at hle
        have hmem : d.minFac ∈ p :: tail :=
          hcov _ hq hlbq ⟨p, List.mem_cons_self p tail, hle⟩
        rcases List.mem_cons.mp hmem with heq | htl
        · exact rndvd (heq ▸ hqd)
        · have := (List.pairwise_cons.mp hsort).1 _ htl
          omega
      calc p < d.minFac := hpq
        _ ≤ d := Nat.minFac_le (by omega)
    by_cases h1 : (divideOut p n).2 = 1
    · rw [splLoop_cons_one tail h1]
      refine ⟨by omega, h1 ▸ one_dvd n, ?_, pairwise_le_of_all_eq rmem, ?_, ?_⟩
      · intro x hx
        rw [rmem x hx]
        exact ⟨hp, hlbp⟩
      · intro q hq hqd
        rw [h1] at hqd
        exact ((hq.ne_one (Nat.dvd_one.mp hqd)).elim)
      · left
        refine ⟨h1, ?_⟩
        have := rprod
        rw [h1, Nat.mul_one] at this
        exact this
    · by_cases h2 : (divideOut p n).2 < p * p
      · rw [splLoop_cons_small tail h1 h2]
        have h12 : 1 < (divideOut p n).2 := by omega
        have hprime : Nat.Prime (divideOut p n).2 := by
          by_contra hnp
          obtain ⟨a, hadvd, ha2, halt⟩ := Nat.exists_dvd_of_not_prime2 h12 hnp
          obtain ⟨b, hb⟩ := id hadvd
          have hbne0 : b ≠ 0 := by
            rintro rfl
            rw [Nat.mul_zero] at hb
            omega
          have hbne1 : b ≠ 1 := by
            rintro rfl
            rw [Nat.mul_one] at hb
            omega
          have hbdvd : b ∣ (divideOut p n).2 := ⟨a, by rw [hb]; ring⟩
          have hpa := hgt a ha2 hadvd
          have hpb := hgt b (by omega) hbdvd
          have hle : (p + 1) * (p + 1) ≤ a * b := Nat.mul_le_mul (by omega) (by omega)
          rw [← hb] at hle
          nlinarith
        have hplt : p < (divideOut p n).2 := hgt _ (by omega) dvd_rfl
        refine ⟨by omega, rdvd, ?_, ?_, ?_, ?_⟩
        · intro x hx
          rcases List.mem_append.mp hx with hxl | hxr
          · rw [rmem x hxl]
            exact ⟨hp, hlbp⟩
          · rw [List.mem_singleton.mp hxr]
            exact ⟨hprime, hfac _ hprime rdvd⟩
        · refine List.pairwise_append.mpr
            ⟨pairwise_le_of_all_eq rmem, List.pairwise_singleton _ _, ?_⟩
          intro a ha b hb
          rw [rmem a ha, List.mem_singleton.mp hb]
          omega
        · intro q hq hqd x hx
          have hqe : q = (divideOut p n).2 := (Nat.prime_dvd_prime_iff_eq hq hprime).mp hqd
          rcases List.mem_append.mp hx with hxl | hxr
          · rw [rmem x hxl, hqe]
            omega
          · rw [List.mem_singleton.mp hxr, hqe]
        · right; left
          refine ⟨h12, hprime, ⟨p, List.mem_cons_self p tail, h2⟩,
            ⟨(divideOut p n).1, rfl⟩, ?_⟩
          rw [List.prod_append, List.prod_singleton]
          exact rprod
      · rw [splLoop_cons_rec tail h1 h2]
        have hfac2 : ∀ q, Nat.Prime q → q ∣ (divideOut p n).2 → p + 1 ≤ q := by
          intro q hq hqd
          have := hgt q hq.two_le hqd
          omega
        have hps2 : ∀ x ∈ tail, Nat.Prime x ∧ p + 1 ≤ x := by
          intro x hx
          exact ⟨(hps x (List.mem_cons_of_mem p hx)).1,
            (List.pairwise_cons.mp hsort).1 x hx⟩
        have hcov2 : ∀ q, Nat.Prime q → p + 1 ≤ q → (∃ pq ∈ tail, q ≤ pq) → q ∈ tail := by
          intro q hq hq1 hex
          obtain ⟨pq, hpq, hqpq⟩ := hex
          have hmem : q ∈ p :: tail :=
            hcov _ hq (by omega) ⟨pq, List.mem_cons_of_mem p hpq, hqpq⟩
          rcases List.mem_cons.mp hmem with heq | htl
          · omega
          · exact htl
        obtain ⟨ipos, idvd, imem, ipw, iK3, icase⟩ :=
          ih (p + 1) (divideOut p n).2 rpos hfac2 hps2 (List.pairwise_cons.mp hsort).2 hcov2
        refine ⟨ipos, idvd.trans rdvd, ?_, ?_, ?_, ?_⟩
        · intro x hx
          rcases List.mem_append.mp hx with hxl | hxr
          · rw [rmem x hxl]
            exact ⟨hp, hlbp⟩
          · obtain ⟨hxp, hxlb⟩ := imem x hxr
            exact ⟨hxp, by omega⟩
        · refine List.pairwise_append.mpr ⟨pairwise_le_of_all_eq rmem, ipw, ?_⟩
          intro a ha b hb
          rw [rmem a ha]
          have := (imem b hb).2
          omega
        · intro q hq hqd x hx
          rcases List.mem_append.mp hx with hxl | hxr
          · rw [rmem x hxl]
            have := hfac2 q hq (hqd.trans idvd)
            omega
          · exact iK3 q hq hqd x hxr
        · rcases icase with ⟨hm1, hmp⟩ | ⟨hb1, hbpr, ⟨p9, hp9mem, hp9lt⟩, ⟨l, hl⟩, hbprod⟩ |
            ⟨hc1, hcprod, hcall, hclast⟩
          · left
            refine ⟨hm1, ?_⟩
            rw [List.prod_append, hmp]
            exact rprod
          · right; left
            refine ⟨hb1, hbpr, ⟨p9, List.mem_cons_of_mem p hp9mem, hp9lt⟩,
              ⟨(divideOut p n).1 ++ l, by rw [hl, List.append_assoc]⟩, ?_⟩
            rw [List.prod_append, hbprod]
            exact rprod
          · right; right
            refine ⟨hc1, ?_, ?_, ?_⟩
            · rw [List.prod_append, Nat.mul_assoc, hcprod]
              exact rprod
            · intro q hq hqd pp hppmem
              rcases List.mem_cons.mp hppmem with heq | htl
              · subst heq
                exact hgt q hq.two_le (hqd.trans idvd)
              · exact hcall q hq hqd pp htl
            · intro pl hpl
              cases tail with
              | nil =>
                simp only [List.getLast?_singleton, Option.some.injEq] at hpl
                subst hpl
                rw [splLoop_nil]
                omega
              | cons t ts =>
                exact hclast pl (by rw [← List.getLast?_cons_cons]; exact hpl)

theorem trialLoop_exit {cand n s : Nat} (h : ¬ cand ≤ s) : trialLoop cand n s = ([], n) := by
  rw [trialLoop, if_neg h]

theorem trialLoop_skip {cand n s : Nat} (h1 : cand ≤ s) (h2 : (divideOut cand n).1 = []) :
    trialLoop cand n s = trialLoop (cand + 2) n s := by
  rw [trialLoop, if_pos h1, if_pos h2]

theorem trialLoop_div {cand n s : Nat} (h1 : cand ≤ s) (h2 : ¬ (divideOut cand n).1 = []) :
    trialLoop cand n s =
      ((divideOut cand n).1 ++
        (trialLoop (cand + 2) (divideOut cand n).2 (isqrt (divideOut cand n).2)).1,
       (trialLoop (cand + 2) (divideOut cand n).2 (isqrt (divideOut cand n).2)).2) := by
  rw [trialLoop, if_pos h1, if_neg h2]

/-- Full specification of the odd-candidate trial-division loop, under the
invariants the factorizer maintains: `n` odd and positive, `cand` odd with
every prime factor of `n` at or above it, and `s` the exact integer square
root of `n`.  The loop returns a sorted list of primes together with a
cofactor that is either 1 or prime. -/
theorem tlSpec : ∀ cand n s : Nat,
    0 < n → ¬ 2 ∣ n → 3 ≤ cand → cand % 2 = 1 → s = Nat.sqrt n →
    (∀ q, Nat.Prime q → q ∣ n → cand ≤ q) →
    0 < (trialLoop cand n s).2 ∧
    (trialLoop cand n s).1.prod * (trialLoop cand n s).2 = n ∧
    (∀ x ∈ (trialLoop cand n s).1, Nat.Prime x ∧ cand ≤ x) ∧
    List.Pairwise (· ≤ ·) (trialLoop cand n s).1 ∧
    (∀ q, Nat.Prime q → q ∣ (trialLoop cand n s).2 →
      ∀ x ∈ (trialLoop cand n s).1, x ≤ q) ∧
    ((trialLoop cand n s).2 = 1 ∨ Nat.Prime (trialLoop cand n s).2) := by
  intro cand n s
  induction cand, n, s using trialLoop.induct with
  | case1 cand n s h1 h2 ih =>
    -- divideOut found nothing: candidate does not divide n
    intro hn hodd hc3 hcodd hs hfac
    have hndvd : ¬ cand ∣ n := divideOut_eq_nil cand n (by omega) hn h2
    have hfac2 : ∀ q, Nat.Prime q → q ∣ n → cand + 2 ≤ q := by
      intro q hq hqd
      have hcq : cand ≤ q := hfac q hq hqd
      have hqne : q ≠ cand := by
        rintro rfl
        exact hndvd hqd
      have hq2 : q ≠ 2 := by
        rintro rfl
        exact hodd hqd
      have hqodd : q % 2 = 1 := Nat.odd_iff.mp (hq.odd_of_ne_two hq2)
      omega
    rw [trialLoop_skip h1 h2]
    obtain ⟨ipos, iprod, imem, ipw, iK3, ilast⟩ := ih hn hodd (by omega) (by omega) hs hfac2
    exact ⟨ipos, iprod,
      fun x hx => ⟨(imem x hx).1, by have := (imem x hx).2; omega⟩, ipw, iK3, ilast⟩
  | case2 cand n s h1 h2 ih =>
    -- divideOut stripped at least one copy of cand
    intro hn hodd hc3 hcodd hs hfac
    obtain ⟨hc2, -, hcdvd⟩ := divideOut_nonempty cand n h2
    have hcprime : Nat.Prime cand := by
      have hmfp : Nat.Prime cand.minFac := Nat.minFac_prime (by omega)
      have hmfn : cand.minFac ∣ n := (Nat.minFac_dvd cand).trans hcdvd
      have h1le := hfac _ hmfp hmfn
      have h2le := Nat.minFac_le (show 0 < cand by omega)
      have : cand.minFac = cand := by omega
      rw [← this]
      exact hmfp
    have rpos := divideOut_pos cand n hn
    have rdvd := divideOut_dvd cand n
    have rndvd := divideOut_not_dvd cand n hc2 hn
    have rprod := divideOut_prod cand n
    have rmem := divideOut_mem cand n
    have hodd2 : ¬ 2 ∣ (divideOut cand n).2 := fun hd => hodd (hd.trans rdvd)
    have hfac2 : ∀ q, Nat.Prime q → q ∣ (divideOut cand n).2 → cand + 2 ≤ q := by
      intro q hq hqd
      have hcq : cand ≤ q := hfac q hq (hqd.trans rdvd)
      have hqne : q ≠ cand := by
        rintro rfl
        exact rndvd hqd
      have hq2 : q ≠ 2 := by
        rintro rfl
        exact hodd2 hqd
      have hqodd : q % 2 = 1 := Nat.odd_iff.mp (hq.odd_of_ne_two hq2)
      omega
    obtain ⟨ipos, iprod, imem, ipw, iK3, ilast⟩ :=
      ih rpos hodd2 (by omega) (by omega) (isqrt_eq_sqrt _) hfac2
    rw [trialLoop_div h1 h2]
    have tdvd : (trialLoop (cand + 2) (divideOut cand n).2
        (isqrt (divideOut cand n).2)).2 ∣ (divideOut cand n).2 :=
      Dvd.intro_left _ iprod
    refine ⟨ipos, ?_, ?_, ?_, ?_, ilast⟩
    · rw [List.prod_append, Nat.mul_assoc, iprod]
      exact rprod
    · intro x hx
      rcases List.mem_append.mp hx with hxl | hxr
      · rw [rmem x hxl]
        exact ⟨hcprime, Nat.le_refl cand⟩
      · obtain ⟨hxp, hxge⟩ := imem x hxr
        exact ⟨hxp, by omega⟩
    · refine List.pairwise_append.mpr ⟨pairwise_le_of_all_eq rmem, ipw, ?_⟩
      intro a ha b hb
      rw [rmem a ha]
      have := (imem b hb).2
      omega
    · intro q hq hqd x hx
      rcases List.mem_append.mp hx with hxl | hxr
      · rw [rmem x hxl]
        have := hfac2 q hq (hqd.trans tdvd)
        omega
      · exact iK3 q hq hqd x hxr
  | case3 cand n s h1 =>
    -- candidate exceeded the square-root bound
    intro hn hodd hc3 hcodd hs hfac
    rw [trialLoop_exit h1]
    refine ⟨hn, by simp, by simp, List.Pairwise.nil, by simp, ?_⟩
    by_cases hone : n = 1
    · left
      exact hone
    · right
      by_contra hnp
      have h1n : 1 < n := by omega
      have hmfp : Nat.Prime n.minFac := Nat.minFac_prime (by omega)
      obtain ⟨b, hb⟩ := Nat.minFac_dvd n
      have hbpos : 0 < b := by
        rcases Nat.eq_zero_or_pos b with h0 | h
        · rw [h0, Nat.mul_zero] at hb
          omega
        · exact h
      have hbne1 : b ≠ 1 := by
        rintro rfl
        rw [Nat.mul_one] at hb
        exact hnp (hb ▸ hmfp)
      have hbdvd : b ∣ n := Dvd.intro_left n.minFac hb.symm
      have hble : n.minFac ≤ b := by
        have hh1 := Nat.minFac_le_of_dvd (Nat.minFac_prime hbne1).two_le
          ((Nat.minFac_dvd b).trans hbdvd)
        have hh2 := Nat.minFac_le hbpos
        omega
      have hsqle : n.minFac * n.minFac ≤ n := by
        calc n.minFac * n.minFac ≤ n.minFac * b := Nat.mul_le_mul_left _ hble
          _ = n := hb.symm
      have hcle : cand ≤ n.minFac := hfac _ hmfp (Nat.minFac_dvd n)
      have hcsq : cand ≤ Nat.sqrt n := Nat.le_sqrt.mpr
        (Nat.le_trans (Nat.mul_le_mul hcle hcle) hsqle)
      rw [← hs] at hcsq
      exact h1 hcsq

/-- A sorted list of primes with product `n` is exactly `n.primeFactorsList`. -/
theorem sorted_prime_prod_eq (l : List Nat) (n : Nat)
    (hp : ∀ x ∈ l, Nat.Prime x) (hs : List.Pairwise (· ≤ ·) l) (hprod : l.prod = n) :
    l = n.primeFactorsList :=
  List.eq_of_perm_of_sorted (Nat.primeFactorsList_unique hprod hp) hs
    (Nat.primeFactorsList_sorted n)

theorem core_eq_done (n : Nat) (h1 : ¬ 1 < (smallPrimeLoop smallPrimes n).2) :
    prime_factorize_core n = (smallPrimeLoop smallPrimes n).1 := by
  simp only [prime_factorize_core]
  rw [if_neg h1]

theorem core_eq_small (n : Nat) (h1 : 1 < (smallPrimeLoop smallPrimes n).2)
    (h2 : (smallPrimeLoop smallPrimes n).2 < 5041) :
    prime_factorize_core n =
      (smallPrimeLoop smallPrimes n).1 ++ [(smallPrimeLoop smallPrimes n).2] := by
  simp only [prime_factorize_core]
  rw [if_pos h1, if_neg (by omega : ¬ 71 * 71 ≤ (smallPrimeLoop smallPrimes n).2)]
  simp [h1]

theorem core_eq_big (n : Nat) (h1 : 1 < (smallPrimeLoop smallPrimes n).2)
    (h2 : 71 * 71 ≤ (smallPrimeLoop smallPrimes n).2) :
    prime_factorize_core n =
      (if 1 < (trialLoop 73 (smallPrimeLoop smallPrimes n).2
            (isqrt (smallPrimeLoop smallPrimes n).2)).2
       then (smallPrimeLoop smallPrimes n).1 ++
            (trialLoop 73 (smallPrimeLoop smallPrimes n).2
              (isqrt (smallPrimeLoop smallPrimes n).2)).1 ++
            [(trialLoop 73 (smallPrimeLoop smallPrimes n).2
              (isqrt (smallPrimeLoop smallPrimes n).2)).2]
       else (smallPrimeLoop smallPrimes n).1 ++
            (trialLoop 73 (smallPrimeLoop smallPrimes n).2
              (isqrt (smallPrimeLoop smallPrimes n).2)).1) := by
  simp only [prime_factorize_core]
  rw [if_pos h1, if_pos h2]
  norm_num

/-- What `prime_factorize_optimized` computes on a cache miss: either the
true sorted prime factorization of `n`, or — whenever the small-prime loop
took its early exit — the true factorization with its last element
duplicated. -/
theorem core_spec (n : Nat) (hn : 2 ≤ n) :
    prime_factorize_core n = n.primeFactorsList ∨
    ∃ l p, n.primeFactorsList = l ++ [p] ∧
      prime_factorize_core n = l ++ [p] ++ [p] := by
  have hsp : ∀ p ∈ smallPrimes, Nat.Prime p ∧ 2 ≤ p := by decide
  have hsort : List.Pairwise (· < ·) smallPrimes := by decide
  have hcovd : ∀ q < 72, Nat.Prime q → q ∈ smallPrimes := by decide
  have hle71 : ∀ p ∈ smallPrimes, p ≤ 71 := by decide
  have hcov : ∀ q, Nat.Prime q → 2 ≤ q → (∃ p ∈ smallPrimes, q ≤ p) →
      q ∈ smallPrimes := by
    rintro q hq h2 ⟨p, hp, hqp⟩
    exact hcovd q (by have := hle71 p hp; omega) hq
  obtain ⟨hpos, hdvd, hmem, hpw, hK3, hcases⟩ :=
    splSpec smallPrimes 2 n (by omega) (fun q hq _ => hq.two_le) hsp hsort hcov
  rcases hcases with ⟨h1, hprod⟩ | ⟨h1, hpr, ⟨p, hpmem, hplt⟩, ⟨l, hl⟩, hprod⟩ |
    ⟨h1, hprod, hball, hlast⟩
  · -- cofactor reduced to 1: factors are complete
    left
    rw [core_eq_done n (by omega)]
    exact sorted_prime_prod_eq _ n (fun x hx => (hmem x hx).1) hpw hprod
  · -- early exit: the prime cofactor is appended twice
    right
    have h5041 : (smallPrimeLoop smallPrimes n).2 < 5041 := by
      have := hle71 p hpmem
      nlinarith
    have hfs : (smallPrimeLoop smallPrimes n).1 = n.primeFactorsList :=
      sorted_prime_prod_eq _ n (fun x hx => (hmem x hx).1) hpw hprod
    refine ⟨l, (smallPrimeLoop smallPrimes n).2, by rw [← hfs, hl], ?_⟩
    rw [core_eq_small n h1 h5041, hl]
  · -- loop exhausted: trial division finishes the factorization exactly
    left
    have h5041 : 71 * 71 ≤ (smallPrimeLoop smallPrimes n).2 := hlast 71 rfl
    have hq73 : ∀ q, Nat.Prime q → q ∣ (smallPrimeLoop smallPrimes n).2 → 73 ≤ q := by
      intro q hq hqd
      have h71lt : 71 < q := hball q hq hqd 71 (by decide : (71:Nat) ∈ smallPrimes)
      have h72 : q ≠ 72 := by
        rintro rfl
        exact absurd hq (by decide)
      omega
    have hodd2 : ¬ 2 ∣ (smallPrimeLoop smallPrimes n).2 := by
      intro hd
      have := hball 2 Nat.prime_two hd 2 (by decide : (2:Nat) ∈ smallPrimes)
      omega
    obtain ⟨tpos, tprod, tmem, tpw, tK3, tlast⟩ :=
      tlSpec 73 (smallPrimeLoop smallPrimes n).2
        (isqrt (smallPrimeLoop smallPrimes n).2)
        (by omega) hodd2 (by omega) (by norm_num) (isqrt_eq_sqrt _) hq73
    rw [core_eq_big n h1 h5041]
    have tdvd : (trialLoop 73 (smallPrimeLoop smallPrimes n).2
        (isqrt (smallPrimeLoop smallPrimes n).2)).2 ∣ (smallPrimeLoop smallPrimes n).2 :=
      Dvd.intro_left _ tprod
    have tproddvd : (trialLoop 73 (smallPrimeLoop smallPrimes n).2
        (isqrt (smallPrimeLoop smallPrimes n).2)).1.prod ∣
        (smallPrimeLoop smallPrimes n).2 :=
      ⟨(trialLoop 73 (smallPrimeLoop smallPrimes n).2
        (isqrt (smallPrimeLoop smallPrimes n).2)).2, tprod.symm⟩
    have cross1 : ∀ a ∈ (smallPrimeLoop smallPrimes n).1,
        ∀ b ∈ (trialLoop 73 (smallPrimeLoop smallPrimes n).2
          (isqrt (smallPrimeLoop smallPrimes n).2)).1, a ≤ b := by
      intro a ha b hb
      exact hK3 b (tmem b hb).1 ((List.dvd_prod hb).trans tproddvd) a ha
    by_cases ht2 : 1 < (trialLoop 73 (smallPrimeLoop smallPrimes n).2
        (isqrt (smallPrimeLoop smallPrimes n).2)).2
    · rw [if_pos ht2]
      have ht2p : Nat.Prime (trialLoop 73 (smallPrimeLoop smallPrimes n).2
          (isqrt (smallPrimeLoop smallPrimes n).2)).2 :=
        tlast.resolve_left (by omega)
      refine sorted_prime_prod_eq _ n ?_ ?_ ?_
      · intro x hx
        rcases List.mem_append.mp hx with hx1 | hx2
        · rcases List.mem_append.mp hx1 with hxa | hxb
          · exact (hmem x hxa).1
          · exact (tmem x hxb).1
        · rw [List.mem_singleton.mp hx2]
          exact ht2p
      · refine List.pairwise_append.mpr ⟨List.pairwise_append.mpr ⟨hpw, tpw, cross1⟩,
          List.pairwise_singleton _ _, ?_⟩
        intro a ha b hb
        rw [List.mem_singleton.mp hb]
        rcases List.mem_append.mp ha with hxa | hxb
        · exact hK3 _ ht2p tdvd a hxa
        · exact tK3 _ ht2p dvd_rfl a hxb
      · rw [List.prod_append, List.prod_append, List.prod_singleton,
          Nat.mul_assoc, tprod]
        exact hprod
    · rw [if_neg ht2]
      have ht21 : (trialLoop 73 (smallPrimeLoop smallPrimes n).2
          (isqrt (smallPrimeLoop smallPrimes n).2)).2 = 1 := by
        rcases tlast with h | h
        · exact h
        · have := h.one_lt
          omega
      refine sorted_prime_prod_eq _ n ?_ ?_ ?_
      · intro x hx
        rcases List.mem_append.mp hx with hxa | hxb
        · exact (hmem x hxa).1
        · exact (tmem x hxb).1
      · exact List.pairwise_append.mpr ⟨hpw, tpw, cross1⟩
      · rw [List.prod_append]
        have := tprod
        rw [ht21, Nat.mul_one] at this
        rw [this]
        exact hprod

theorem core_sorted (n : Nat) (hn : 2 ≤ n) :
    List.Pairwise (· ≤ ·) (prime_factorize_core n) := by
  rcases core_spec n hn with h | ⟨l, p, hpfl, hcore⟩
  · rw [h]
    exact Nat.primeFactorsList_sorted n
  · rw [hcore]
    have hs : List.Pairwise (· ≤ ·) (l ++ [p]) := by
      rw [← hpfl]
      exact Nat.primeFactorsList_sorted n
    obtain ⟨hl, -, hcrossp⟩ := List.pairwise_append.mp hs
    refine List.pairwise_append.mpr ⟨List.pairwise_append.mpr
      ⟨hl, List.pairwise_singleton _ _, ?_⟩, List.pairwise_singleton _ _, ?_⟩
    · intro a ha b hb
      rw [List.mem_singleton.mp hb]
      exact hcrossp a ha p (List.mem_singleton_self p)
    · intro a ha b hb
      rw [List.mem_singleton.mp hb]
      rcases List.mem_append.mp ha with h | h
      · exact hcrossp a h p (List.mem_singleton_self p)
      · rw [List.mem_singleton.mp h]

theorem primeFactorsList_length_le (n : Nat) (h2 : 2 ≤ n) (hlt : n < 4294967296) :
    n.primeFactorsList.length ≤ 31 := by
  have hmem : ∀ x ∈ n.primeFactorsList, 2 ≤ x :=
    fun x hx => (Nat.prime_of_mem_primeFactorsList hx).two_le
  have hpow : 2 ^ n.primeFactorsList.length ≤ n := by
    calc 2 ^ n.primeFactorsList.length ≤ n.primeFactorsList.prod :=
      two_pow_length_le_prod hmem
      _ = n := Nat.prod_primeFactorsList (by omega)
  by_contra hgt
  push_neg at hgt
  have hge : 2 ^ 32 ≤ 2 ^ n.primeFactorsList.length :=
    Nat.pow_le_pow_right (by omega) (by omega)
  have h32 : (2:Nat) ^ 32 = 4294967296 := by norm_num
  omega

/-- The factor list computed on a miss never comes close to the
`MAX_FACTORS = 64` buffer bound: at most 31 true prime factors plus at
most one duplicated cofactor. -/
theorem core_length_le (n : Nat) (h2 : 2 ≤ n) (hlt : n < 4294967296) :
    (prime_factorize_core n).length ≤ 32 := by
  rcases core_spec n h2 with h | ⟨l, p, hpfl, hcore⟩
  · rw [h]
    have := primeFactorsList_length_le n h2 hlt
    omega
  · rw [hcore]
    have hle := primeFactorsList_length_le n h2 hlt
    rw [hpfl] at hle
    simp only [List.length_append, List.length_singleton] at hle ⊢
    omega

theorem checkCache_mem : ∀ (c : Cache) (n : Nat) (fs : List Nat),
    checkCache c n = some fs → (n, fs) ∈ c := by
  intro c
  induction c with
  | nil =>
    intro n fs h
    simp [checkCache] at h
  | cons e rest ih =>
    intro n fs h
    obtain ⟨a, b⟩ := e
    simp only [checkCache] at h
    split at h
    · rename_i hc
      injection h with hf
      subst hc
      subst hf
      exact List.mem_cons_self _ _
    · exact List.mem_cons_of_mem _ (ih n fs h)

theorem checkCache_none (c : Cache) (n : Nat) (h : ∀ e ∈ c, e.1 ≠ n) :
    checkCache c n = none := by
  induction c with
  | nil => rfl
  | cons e rest ih =>
    simp only [checkCache]
    rw [if_neg (h e (List.mem_cons_self e rest))]
    exact ih fun x hx => h x (List.mem_cons_of_mem e hx)

theorem factorize_low {n : Nat} (c : Cache) (h : n ≤ 1) :
    prime_factorize_optimized n c = ([], c) := by
  simp only [prime_factorize_optimized]
  rw [if_pos h]

theorem factorize_hit {n : Nat} {c : Cache} {fs : List Nat} (h1 : 1 < n)
    (h2 : checkCache c n = some fs) :
    prime_factorize_optimized n c = (fs, c) := by
  simp only [prime_factorize_optimized]
  rw [if_neg (by omega), h2]

theorem factorize_miss {n : Nat} {c : Cache} (h1 : 1 < n)
    (h2 : checkCache c n = none) :
    prime_factorize_optimized n c =
      (prime_factorize_core n, addToCache c n (prime_factorize_core n)) := by
  simp only [prime_factorize_optimized]
  rw [if_neg (by omega), h2]

theorem validCache_nil : ValidCache [] := fun e he => absurd he (List.not_mem_nil e)

theorem validCache_addToCache {c : Cache} (hv : ValidCache c) {n : Nat}
    (h2 : 2 ≤ n) :
    ValidCache (addToCache c n (prime_factorize_core n)) := by
  intro e he
  rw [addToCache] at he
  split at he
  · exact hv e he
  · rcases List.mem_append.mp he with h | h
    · exact hv e h
    · rw [List.mem_singleton.mp h]
      exact ⟨h2, rfl⟩

theorem validCache_factorize {c : Cache} (hv : ValidCache c) (n : Nat) :
    ValidCache (prime_factorize_optimized n c).2 := by
  by_cases h1 : n ≤ 1
  · rw [factorize_low c h1]
    exact hv
  · push_neg at h1
    cases hc : checkCache c n with
    | some fs =>
      rw [factorize_hit h1 hc]
      exact hv
    | none =>
      rw [factorize_miss h1 hc]
      exact validCache_addToCache hv (by omega)

theorem validCache_batch {xs : List Nat} : ∀ {c : Cache}, ValidCache c →
    ValidCache (batch_factorize xs c).2 := by
  induction xs with
  | nil =>
    intro c hv
    exact hv
  | cons x xs ih =>
    intro c hv
    simp only [batch_factorize]
    exact ih (validCache_factorize hv x)

theorem validCache_precomputeLoop : ∀ (ds : List Nat) {c : Cache}, ValidCache c →
    ValidCache (precomputeLoop ds c) := by
  intro ds
  induction ds with
  | nil =>
    intro c hv
    exact hv
  | cons d ds ih =>
    intro c hv
    simp only [precomputeLoop]
    split
    · exact ih (validCache_factorize hv d)
    · exact hv

/-- Every reachable cache state is valid: each entry stores exactly the
freshly computed factor sequence of its number. -/
theorem reachable_valid {c : Cache} (h : Reachable c) : ValidCache c := by
  induction h with
  | empty => exact validCache_nil
  | factorize n _ ih => exact validCache_factorize ih n
  | batch xs _ ih => exact validCache_batch ih
  | precompute _ ih => exact validCache_precomputeLoop common_dims ih
  | clear _ ih => exact validCache_nil

theorem addToCache_length {c : Cache} {n : Nat} {fs : List Nat}
    (h : c.length ≤ MAX_CACHE_SIZE) :
    (addToCache c n fs).length ≤ MAX_CACHE_SIZE := by
  rw [addToCache]
  split
  · exact h
  · rename_i hcond
    push_neg at hcond
    simp only [List.length_append, List.length_singleton]
    have := hcond.1
    omega

theorem factorize_length {c : Cache} (h : c.length ≤ MAX_CACHE_SIZE) (n : Nat) :
    (prime_factorize_optimized n c).2.length ≤ MAX_CACHE_SIZE := by
  by_cases h1 : n ≤ 1
  · rw [factorize_low c h1]
    exact h
  · push_neg at h1
    cases hc : checkCache c n with
    | some fs =>
      rw [factorize_hit h1 hc]
      exact h
    | none =>
      rw [factorize_miss h1 hc]
      exact addToCache_length h

theorem batch_length {xs : List Nat} : ∀ {c : Cache}, c.length ≤ MAX_CACHE_SIZE →
    (batch_factorize xs c).2.length ≤ MAX_CACHE_SIZE := by
  induction xs with
  | nil =>
    intro c h
    exact h
  | cons x xs ih =>
    intro c h
    simp only [batch_factorize]
    exact ih (factorize_length h x)

theorem precomputeLoop_length_le : ∀ (ds : List Nat) {c : Cache},
    c.length ≤ MAX_CACHE_SIZE → (precomputeLoop ds c).length ≤ MAX_CACHE_SIZE := by
  intro ds
  induction ds with
  | nil =>
    intro c h
    exact h
  | cons d ds ih =>
    intro c h
    simp only [precomputeLoop]
    split
    · exact ih (factorize_length h d)
    · exact h

/-- The cache never exceeds its capacity. -/
theorem reachable_length {c : Cache} (h : Reachable c) :
    c.length ≤ MAX_CACHE_SIZE := by
  induction h with
  | empty => exact Nat.zero_le _
  | factorize n _ ih => exact factorize_length ih n
  | batch xs _ ih => exact batch_length ih
  | precompute _ ih => exact precomputeLoop_length_le common_dims ih
  | clear _ _ => exact Nat.zero_le _

theorem factorize_empty_high (n : Nat) (h : 1 < n) :
    (prime_factorize_optimized n []).1 = prime_factorize_core n := by
  rw [factorize_miss h (rfl : checkCache [] n = none)]

/-- Against any valid cache, `prime_factorize_optimized` returns the same
sequence a fresh computation against an empty cache would return. -/
theorem factorize_fst_fresh {c : Cache} (hv : ValidCache c) (n : Nat) :
    (prime_factorize_optimized n c).1 = (prime_factorize_optimized n []).1 := by
  by_cases h1 : n ≤ 1
  · rw [factorize_low c h1, factorize_low [] h1]
  · push_neg at h1
    rw [factorize_empty_high n h1]
    cases hc : checkCache c n with
    | some fs =>
      rw [factorize_hit h1 hc]
      have hm := checkCache_mem c n fs hc
      exact (hv _ hm).2
    | none =>
      rw [factorize_miss h1 hc]

/-- Counting lemma for the precompute loop: over pairwise-distinct inputs
none of which is already cached, each input `≥ 2` appends exactly one
entry and inputs `≤ 1` append none. -/
theorem precomputeLoop_length_eq : ∀ (ds : List Nat) (c : Cache),
    (∀ d ∈ ds, d < 4294967296) → List.Nodup ds →
    (∀ d ∈ ds, ∀ e ∈ c, e.1 ≠ d) →
    c.length + ds.length ≤ MAX_CACHE_SIZE →
    (precomputeLoop ds c).length =
      c.length + (ds.filter (fun d => 2 ≤ d)).length := by
  intro ds
  induction ds with
  | nil =>
    intro c _ _ _ _
    simp [precomputeLoop]
  | cons d ds ih =>
    intro c hbound hnodup hfresh hlen
    simp only [List.length_cons] at hlen
    simp only [precomputeLoop]
    rw [if_pos (by omega : c.length < MAX_CACHE_SIZE)]
    by_cases hd : d ≤ 1
    · rw [factorize_low c hd]
      rw [ih c (fun x hx => hbound x (List.mem_cons_of_mem d hx))
        (List.nodup_cons.mp hnodup).2
        (fun x hx e he => hfresh x (List.mem_cons_of_mem d hx) e he)
        (by omega)]
      rw [List.filter_cons_of_neg (by simp; omega)]
    · push_neg at hd
      have hnone : checkCache c d = none :=
        checkCache_none c d (fun e he => hfresh d (List.mem_cons_self d ds) e he)
      rw [factorize_miss (by omega) hnone]
      have hcl : (prime_factorize_core d).length ≤ 32 :=
        core_length_le d (by omega) (hbound d (List.mem_cons_self d ds))
      have hatc : addToCache c d (prime_factorize_core d) =
          c ++ [(d, prime_factorize_core d)] := by
        rw [addToCache, if_neg (by
          push_neg
          refine ⟨by omega, ?_⟩
          simp only [MAX_FACTORS]
          omega)]
      rw [hatc]
      have hdnotin : d ∉ ds := (List.nodup_cons.mp hnodup).1
      rw [ih (c ++ [(d, prime_factorize_core d)])
        (fun x hx => hbound x (List.mem_cons_of_mem d hx))
        (List.nodup_cons.mp hnodup).2
        (by
          intro x hx e he
          rcases List.mem_append.mp he with h | h
          · exact hfresh x (List.mem_cons_of_mem d hx) e h
          · rw [List.mem_singleton.mp h]
            intro heq
            have hdx : d = x := heq
            exact hdnotin (hdx ▸ hx))
        (by simp; omega)]
      rw [List.filter_cons_of_pos (by simpa using hd)]
      simp only [List.length_append, List.length_singleton, List.length_cons,
        List.length_nil]
      omega

theorem precompute_empty_length : (precompute_common_dimensions []).length = 27 := by
  have h := precomputeLoop_length_eq common_dims []
    (by decide) (by decide)
    (fun d _ e he => absurd he (List.not_mem_nil e))
    (by decide)
  rw [precompute_common_dimensions, h]
  rfl

/-- The Lua binding of `precompute_common_dimensions`
(`lua_precompute_common_dimensions`): runs it for its caching side effect
and returns the resulting cache size. -/
def lua_precompute_common_dimensions (c : Cache) : Nat × Cache :=
  ((precompute_common_dimensions c).length, precompute_common_dimensions c)

theorem checkCache_replicate_zeros :
    ∀ k, checkCache (List.replicate k ((0 : Nat), ([] : List Nat))) 7 = none := by
  intro k
  induction k with
  | zero => rfl
  | succ k ih =>
    simp only [List.replicate_succ, checkCache]
    rw [if_neg (by decide)]
    exact ih

set_option maxHeartbeats 1000000 in
/-- C1: the claim `for every n in [2, 2^32-1] the product of factorize(n)
equals n, and factorize(12) = [2,2,3]` is false on the code: starting from
the empty cache, factorize(12) returns [2,2,3,3] — the small-prime loop's
early exit appends the prime cofactor 3 without clearing `n`, and the
final `if (n > 1)` appends it a second time — so the product is 36, not
12. -/
theorem claim_C1 :
    (prime_factorize_optimized 12 []).1 = [2, 2, 3, 3] ∧
    (prime_factorize_optimized 12 []).1.prod ≠ 12 := by
  have ha : (prime_factorize_optimized 12 []).1 = [2, 2, 3, 3] := by
    simp [prime_factorize_optimized, checkCache, prime_factorize_core, smallPrimeLoop,
      smallPrimes, divideOut, addToCache]
  refine ⟨ha, ?_⟩
  rw [ha]
  decide

set_option maxHeartbeats 1000000 in
/-- C2: the claim that `wheel_factorize` returns the same multiset of
factors as the trial-division factorizer is false on the code: at n = 169
the wheel's increment pattern [4,6,10,12,16,18,22,24] (cycle sum 112, not
a mod-30 wheel) walks 7, 11, 17, ... and never tests the candidate 13, so
wheel_factorize(169) = [169] while factorize(169) = [13,13]. -/
theorem claim_C2 :
    wheel_factorize 169 = [169] ∧
    (prime_factorize_optimized 169 []).1 = [13, 13] := by
  constructor
  · simp [wheel_factorize, divideOut, isqrt, isqrtLoop, wheelLoop, wheelIncs]
  · simp [prime_factorize_optimized, checkCache, prime_factorize_core, smallPrimeLoop,
      smallPrimes, divideOut, addToCache]

/-- C3 counterexample: the claim that, from an empty cache,
`precompute_common_dimensions()` followed by `get_cache_stats()` yields a
size of at least 28 (the number of distinct table values, including 1) is
false: the resulting size is 27, because factorize(1) returns without any
cache interaction. -/
theorem claim_C3_counterexample :
    ¬ 28 ≤ (get_cache_stats (precompute_common_dimensions [])).1 := by
  rw [get_cache_stats]
  rw [show ((precompute_common_dimensions []).length, MAX_CACHE_SIZE).1 =
    (precompute_common_dimensions []).length from rfl]
  rw [precompute_empty_length]
  omega

/-- C3 (amended): starting from an empty cache,
`precompute_common_dimensions()` followed by `get_cache_stats()` yields a
current size of exactly 27 — the number of values `≥ 2` in the 28-entry
distinct table (the entry 1 is never cached because factorize returns
early for n ≤ 1) — and the operation's return value is that resulting
cache size. -/
theorem claim_C3 :
    (get_cache_stats (lua_precompute_common_dimensions []).2).1 = 27 ∧
    (lua_precompute_common_dimensions []).1 =
      (get_cache_stats (lua_precompute_common_dimensions []).2).1 ∧
    (common_dims.filter (fun d => 2 ≤ d)).length = 27 ∧
    common_dims.Nodup ∧ common_dims.length = 28 := by
  refine ⟨precompute_empty_length, rfl, by decide, by decide, by decide⟩

/-- C4: for every u32 `n` and every reachable cache state, the sequence
returned by factorize(n) is non-decreasing: each element is at most the
next. -/
theorem claim_C4 (n : Nat) (c : Cache) (hn : n < 4294967296) (hc : Reachable c) :
    List.Chain' (· ≤ ·) (prime_factorize_optimized n c).1 := by
  have hv := reachable_valid hc
  by_cases h1 : n ≤ 1
  · rw [factorize_low c h1]
    exact List.chain'_nil
  · push_neg at h1
    cases hcc : checkCache c n with
    | some fs =>
      rw [factorize_hit h1 hcc]
      obtain ⟨h2, hfs⟩ := hv _ (checkCache_mem c n fs hcc)
      have h2n : 2 ≤ n := h2
      have hfsn : fs = prime_factorize_core n := hfs
      show List.Chain' (· ≤ ·) fs
      rw [hfsn]
      exact (core_sorted n (by omega)).chain'
    | none =>
      rw [factorize_miss h1 hcc]
      exact (core_sorted n (by omega)).chain'

/-- C4 witness at n = 12 against the empty cache. -/
theorem claim_C4_witness :
    List.Chain' (· ≤ ·) (prime_factorize_optimized 12 []).1 :=
  claim_C4 12 [] (by norm_num) Reachable.empty

/-- C5: in every reachable cache state, every entry (m, fs) stores exactly
the sequence a fresh factorize(m) against an empty cache produces, and
hence factorize always returns the same sequence it would return against
the empty cache (in particular a cache hit returns what a fresh
computation would produce). -/
theorem claim_C5 (c : Cache) (hc : Reachable c) :
    (∀ m fs, (m, fs) ∈ c → fs = (prime_factorize_optimized m []).1) ∧
    (∀ n, (prime_factorize_optimized n c).1 = (prime_factorize_optimized n []).1) := by
  have hv := reachable_valid hc
  constructor
  · intro m fs hm
    obtain ⟨h2, hfs⟩ := hv _ hm
    have h2n : 2 ≤ m := h2
    rw [factorize_empty_high m (by omega)]
    exact hfs
  · intro n
    exact factorize_fst_fresh hv n

/-- C5 witness at the reachable cache produced by one factorize(12) call. -/
theorem claim_C5_witness :
    (∀ m fs, (m, fs) ∈ (prime_factorize_optimized 12 []).2 →
      fs = (prime_factorize_optimized m []).1) ∧
    (∀ n, (prime_factorize_optimized n (prime_factorize_optimized 12 []).2).1 =
      (prime_factorize_optimized n []).1) :=
  claim_C5 _ (Reachable.factorize 12 Reachable.empty)

/-- C7: `0 ≤ cache_size ≤ MAX_CACHE_SIZE = 1000` is an invariant of every
reachable state; at capacity an insert is a silent no-op, and the
factorization is still computed and returned to the caller. -/
theorem claim_C7 :
    (∀ c : Cache, Reachable c → c.length ≤ MAX_CACHE_SIZE) ∧
    (∀ (c : Cache) (n : Nat) (fs : List Nat), MAX_CACHE_SIZE ≤ c.length →
      addToCache c n fs = c) ∧
    (∀ (c : Cache) (n : Nat), MAX_CACHE_SIZE ≤ c.length → 1 < n →
      checkCache c n = none →
      prime_factorize_optimized n c = (prime_factorize_core n, c)) := by
  refine ⟨fun c hc => reachable_length hc, ?_, ?_⟩
  · intro c n fs h
    rw [addToCache, if_pos (Or.inl h)]
  · intro c n hlen h1 hnone
    rw [factorize_miss h1 hnone, addToCache, if_pos (Or.inl hlen)]

/-- C7 witness: the empty cache obeys the bound, and a 1000-entry cache
drops inserts while factorize(7) still returns its factorization. -/
theorem claim_C7_witness :
    ([] : Cache).length ≤ MAX_CACHE_SIZE ∧
    addToCache (List.replicate 1000 ((0 : Nat), ([] : List Nat))) 7 [7] =
      List.replicate 1000 ((0 : Nat), ([] : List Nat)) ∧
    prime_factorize_optimized 7 (List.replicate 1000 ((0 : Nat), ([] : List Nat))) =
      (prime_factorize_core 7, List.replicate 1000 ((0 : Nat), ([] : List Nat))) := by
  refine ⟨claim_C7.1 [] Reachable.empty,
    claim_C7.2.1 _ 7 [7] ?_,
    claim_C7.2.2 _ 7 ?_ (by omega) (checkCache_replicate_zeros 1000)⟩
  · rw [List.length_replicate]
    decide
  · rw [List.length_replicate]
    decide

/-- C8: batch factorization returns one output per input, in input order,
and each output equals what the trial-division factorizer returns for that
input (fresh, against an empty cache). -/
theorem claim_C8 (xs : List Nat) (c : Cache) (hc : Reachable c) :
    (batch_factorize xs c).1.length = xs.length ∧
    (batch_factorize xs c).1 =
      xs.map (fun x => (prime_factorize_optimized x []).1) := by
  have hmain : ∀ (ys : List Nat) (c2 : Cache), ValidCache c2 →
      (batch_factorize ys c2).1 =
        ys.map (fun x => (prime_factorize_optimized x []).1) := by
    intro ys
    induction ys with
    | nil =>
      intro c2 _
      rfl
    | cons y ys ih =>
      intro c2 hv
      simp only [batch_factorize, List.map_cons]
      rw [factorize_fst_fresh hv y, ih _ (validCache_factorize hv y)]
  have h2 := hmain xs c (reachable_valid hc)
  exact ⟨by rw [h2, List.length_map], h2⟩

/-- C8 witness at xs = [12, 1] against the empty cache. -/
theorem claim_C8_witness :
    (batch_factorize [12, 1] []).1.length = ([12, 1] : List Nat).length ∧
    (batch_factorize [12, 1] []).1 =
      ([12, 1] : List Nat).map (fun x => (prime_factorize_optimized x []).1) :=
  claim_C8 [12, 1] [] Reachable.empty

/-- C9: for n ≤ 1 factorize returns the empty sequence and performs no
cache interaction: the cache after the call is exactly the cache before. -/
theorem claim_C9 (n : Nat) (c : Cache) (h : n ≤ 1) :
    prime_factorize_optimized n c = ([], c) :=
  factorize_low c h

/-- C9 witness at n = 0 and n = 1 against a nonempty cache. -/
theorem claim_C9_witness :
    prime_factorize_optimized 0 [(12, [2, 2, 3, 3])] = ([], [(12, [2, 2, 3, 3])]) ∧
    prime_factorize_optimized 1 [(12, [2, 2, 3, 3])] = ([], [(12, [2, 2, 3, 3])]) :=
  ⟨claim_C9 0 _ (by omega), claim_C9 1 _ (by omega)⟩

/-- C10: for every u32 `n` and reachable cache, factorize returns at most
32 factors (at most 31 prime factors with multiplicity for a 32-bit value,
plus at most one duplicated final cofactor), strictly below the
MAX_FACTORS = 64 bound; consequently the factor-count drop branch of
add_to_cache is never taken for factorizer output: on a miss with spare
capacity the entry is always appended. -/
theorem claim_C10 (n : Nat) (c : Cache) (hn : n < 4294967296) (hc : Reachable c) :
    (prime_factorize_optimized n c).1.length ≤ 32 ∧
    32 < MAX_FACTORS ∧
    (1 < n → checkCache c n = none → c.length < MAX_CACHE_SIZE →
      (prime_factorize_optimized n c).2 =
        c ++ [(n, (prime_factorize_optimized n c).1)]) := by
  have hv := reachable_valid hc
  refine ⟨?_, by decide, ?_⟩
  · by_cases h1 : n ≤ 1
    · rw [factorize_low c h1]
      simp
    · push_neg at h1
      cases hcc : checkCache c n with
      | some fs =>
        rw [factorize_hit h1 hcc]
        obtain ⟨h2, hfs⟩ := hv _ (checkCache_mem c n fs hcc)
        have h2n : 2 ≤ n := h2
        have hfsn : fs = prime_factorize_core n := hfs
        show fs.length ≤ 32
        rw [hfsn]
        exact core_length_le n (by omega) hn
      | none =>
        rw [factorize_miss h1 hcc]
        exact core_length_le n (by omega) hn
  · intro h1 hnone hlen
    rw [factorize_miss h1 hnone]
    show addToCache c n (prime_factorize_core n) = c ++ [(n, prime_factorize_core n)]
    rw [addToCache, if_neg (by
      push_neg
      refine ⟨by omega, ?_⟩
      have := core_length_le n (by omega) hn
      simp only [MAX_FACTORS]
      omega)]

/-- C10 witness at n = 12 against the empty cache. -/
theorem claim_C10_witness :
    (prime_factorize_optimized 12 []).1.length ≤ 32 ∧
    (prime_factorize_optimized 12 []).2 =
      [] ++ [(12, (prime_factorize_optimized 12 []).1)] := by
  obtain ⟨h1, -, h3⟩ := claim_C10 12 [] (by norm_num) Reachable.empty
  exact ⟨h1, h3 (by omega) rfl (by decide)⟩

/-- C6: the claim that isqrt terminates and returns floor(sqrt(n)) for
every u32 input with no failure mode is false on the code at
n = 2^32 - 1: `y = (x + 1) / 2` wraps to 0, the loop sets `x = 0`, and
`n / x` divides by zero (undefined behaviour).  For every other input the
ideal-arithmetic model of the same code does return the exact integer
square root. -/
theorem claim_C6 :
    isqrtU32 4294967295 = none ∧ (∀ n, isqrt n = Nat.sqrt n) :=
  ⟨by simp [isqrtU32, isqrtU32Loop], isqrt_eq_sqrt⟩
